import Mathlib

/-!
Verification of the PDF question-answering pipeline (main.py and app.py).

Shallow embedding conventions:
* Python strings are modelled as lists of characters (the abbreviation Str),
  because character-level reasoning over list operations matches the slicing,
  concatenation and comparison done by the source.
* The filesystem state seen by one call is modelled as an optional list of
  files (none models a missing folder); each file carries its name, the
  integer modification time that stat reports (none models a stat failure,
  handled by the try/except in folder_signature), and the page texts that
  the PDF extractor would return for it.
* Fallible Python code (raise) is modelled with Except.
-/

abbrev Str := List Char

/-- One file of the corpus folder, as seen by one invocation: its name, the
truncated modification time reported by stat (none when stat raises, matching
the try/except in folder_signature), and the page texts that the PDF
extractor yields for it. -/
structure PDFFile where
  name : Str
  mtime : Option Int
  pages : List Str
deriving DecidableEq

/-- Suffix test on character lists, modelling the endswith method of Python
strings: true exactly when the second list is a suffix of the first. -/
def endsWithL (s suf : Str) : Bool :=
  decide (s.drop (s.length - suf.length) = suf) && decide (suf.length ≤ s.length)

/-- ASCII lowering of one character, modelling what the lower method of
Python strings does on the ASCII range (all names in this development are
ASCII). -/
def lowerChar (c : Char) : Char :=
  if 'A' ≤ c ∧ c ≤ 'Z' then Char.ofNat (c.toNat + 32) else c

/-- Character-wise lowering of a name, modelling the lower method. -/
def lowerStr (s : Str) : Str := s.map lowerChar

/-- Lexicographic comparison of names by code point, modelling how Python
compares the strings underlying sorted positional paths. -/
def lexLe : Str → Str → Bool
  | [], _ => true
  | _ :: _, [] => false
  | c :: cs, d :: ds =>
      if c.toNat < d.toNat then true
      else if d.toNat < c.toNat then false
      else lexLe cs ds

/-- Insertion of a file into a name-sorted list of files. -/
def insertByName (f : PDFFile) : List PDFFile → List PDFFile
  | [] => [f]
  | g :: gs => if lexLe f.name g.name then f :: g :: gs else g :: insertByName f gs

/-- Name-sorting of a file list, modelling the sorted builtin applied to the
glob results in folder_signature (paths in one folder compare by name). -/
def sortByName : List PDFFile → List PDFFile
  | [] => []
  | f :: fs => insertByName f (sortByName fs)

/-- Case-sensitive match of the glob pattern star-dot-pdf used by
folder_signature and build_pipeline in app.py. -/
def pdfGlobMatch (f : PDFFile) : Bool := endsWithL f.name ".pdf".data

/-- Case-insensitive match used by cargar_documentos in main.py, which keeps
a file when its lowered name ends with dot-pdf. -/
def pdfLowerMatch (f : PDFFile) : Bool := endsWithL (lowerStr f.name) ".pdf".data

/-- Sorted list of the files of a folder matching the case-sensitive glob
pattern, as enumerated by folder_signature in app.py line 64. -/
def globPdf (files : List PDFFile) : List PDFFile :=
  sortByName (files.filter pdfGlobMatch)

/-- Decimal digits of a natural number, most significant first, via explicit
fuel so that the definition is structural (fuel at least the number renders
correctly; folder_signature formats mtimes this way). -/
def natDigitsAux : Nat → Nat → Str
  | 0, n => [Char.ofNat (48 + n % 10)]
  | fuel + 1, n =>
      if n < 10 then [Char.ofNat (48 + n)]
      else natDigitsAux fuel (n / 10) ++ [Char.ofNat (48 + n % 10)]

/-- Decimal rendering of a natural number. -/
def natDigits (n : Nat) : Str := natDigitsAux n n

/-- Decimal rendering of an integer, modelling how a Python f-string formats
the int of a modification time. -/
def intRepr (m : Int) : Str :=
  if m < 0 then '-' :: natDigits m.natAbs else natDigits m.toNat

/-- One signature part, modelling the f-string at app.py line 66: the file
name, a colon, and the integer mtime (0 when stat raised, line 68). -/
def partStr (f : PDFFile) : Str :=
  f.name ++ ':' :: intRepr (f.mtime.getD 0)

/-- Joining of the parts with a vertical-bar separator, modelling the join
call at app.py line 69. -/
def joinBar : List Str → Str
  | [] => []
  | [s] => s
  | s :: rest => s ++ '|' :: joinBar rest

/-- Model of folder_signature (app.py lines 58 to 69): the sentinel missing
when the folder does not exist, otherwise one name-colon-mtime part per
sorted glob match joined with vertical bars, or the sentinel empty when
there is no match. -/
def folder_signature (fs : Option (List PDFFile)) : Str :=
  match fs with
  | none => "missing".data
  | some files =>
      let parts := (globPdf files).map partStr
      if parts.isEmpty then "empty".data else joinBar parts

/-- Model of the signature actually passed to build_pipeline when the
rebuild button is pressed (app.py lines 103 to 105): the natural signature
with the colon-force marker appended. -/
def forced_signature (fs : Option (List PDFFile)) : Str :=
  folder_signature fs ++ ":force".data

/-- Error taxonomy of the build phase: FileNotFoundError at app.py line 80
maps to NotFound, the two RuntimeError raises (app.py line 83, main.py
line 31) map to EmptyCorpus, and the ValueError raise of crear_vectorstore
(main.py line 49) maps to EmptyDocs. -/
inductive PipelineError where
  | NotFound
  | EmptyCorpus
  | EmptyDocs
deriving DecidableEq

/-- Modelled from the spec: the Chunker of section 4.2. Its implementation
(the RecursiveCharacterTextSplitter library class instantiated at main.py
lines 34 to 37) is external library code, not part of this repository; the
spec describes successive windows of length chunkSize advancing by chunkSize
minus overlap, keeping a trailing partial window and never producing empty
chunks. The fuel argument makes the recursion structural; fuel at least the
text length gives the intended behaviour. -/
def splitAux (cs ov : Nat) : Nat → Str → List Str
  | _, [] => []
  | 0, s => [s]
  | fuel + 1, s =>
      if s.length ≤ cs then [s]
      else s.take cs :: splitAux cs ov fuel (s.drop (cs - ov))

/-- Modelled from the spec: splitting of one page into chunks (section 4.2). -/
def splitPage (cs ov : Nat) (t : Str) : List Str := splitAux cs ov t.length t

/-- Modelled from the spec: splitting of every page of the corpus, page by
page, never crossing a page boundary (section 4.2; the call site is
split_documents at main.py line 38). -/
def split_documents (cs ov : Nat) (pages : List Str) : List Str :=
  (pages.map (splitPage cs ov)).flatten

/-- Model of cargar_documentos (main.py lines 17 to 39): listing a missing
folder raises, the pages of every file whose lowered name ends in dot-pdf
are collected in listing order, an empty collection raises, and otherwise
the pages are split into chunks with the configured sizes 1000 and 200. -/
def cargar_documentos (fs : Option (List PDFFile)) : Except PipelineError (List Str) :=
  match fs with
  | none => .error .NotFound
  | some files =>
      let documentos := ((files.filter pdfLowerMatch).map (fun f => f.pages)).flatten
      if documentos.isEmpty then .error .EmptyCorpus
      else .ok (split_documents 1000 200 documentos)

/-- The vector index, reduced to what the claims need: the list of stored
documents in insertion order. -/
structure VectorStore (α : Type) where
  entries : List α
deriving DecidableEq

/-- Model of the FAISS from_documents constructor: an index initialised with
the given documents (main.py line 56). -/
def FAISS_from_documents (l : List α) : VectorStore α := ⟨l⟩

/-- Model of the add_documents method: incremental insertion at the end
(main.py line 61). -/
def add_documents (vs : VectorStore α) (l : List α) : VectorStore α :=
  ⟨vs.entries ++ l⟩

/-- Successive slices of length at most bs, modelling the loop at main.py
lines 59 to 61, which takes the slice from i to i plus bs for i ranging over
the positive multiples of bs below the length. The fuel argument makes the
recursion structural; fuel at least the list length gives the loop. -/
def chunkListAux (bs : Nat) : Nat → List α → List (List α)
  | _, [] => []
  | 0, l => [l]
  | fuel + 1, l => l.take bs :: chunkListAux bs fuel (l.drop bs)

/-- The batches inserted after the initial one by crear_vectorstore. -/
def restBatches (documentos : List α) (bs : Nat) : List (List α) :=
  chunkListAux bs (documentos.drop bs).length (documentos.drop bs)

/-- All batches of crear_vectorstore in order: the initialising slice of the
first bs documents followed by the successive slices of the loop. -/
def crearBatches (documentos : List α) (bs : Nat) : List (List α) :=
  documentos.take bs :: restBatches documentos bs

/-- Model of crear_vectorstore (main.py lines 43 to 63): an empty document
list raises ValueError; otherwise the index is initialised from the first
bs documents and the remaining slices are inserted incrementally in order. -/
def crear_vectorstore (documentos : List α) (bs : Nat) : Except PipelineError (VectorStore α) :=
  if documentos.isEmpty then .error .EmptyDocs
  else
    let primeros := documentos.take bs
    .ok ((restBatches documentos bs).foldl add_documents (FAISS_from_documents primeros))

/-- Model of build_pipeline (app.py lines 72 to 99), with the built pipeline
reduced to its vector index: a missing folder raises FileNotFoundError, a
folder without a case-sensitive glob match raises RuntimeError, and
otherwise the corpus is loaded, chunked and indexed with the default batch
size 64. -/
def build_pipeline (fs : Option (List PDFFile)) : Except PipelineError (VectorStore Str) :=
  match fs with
  | none => .error .NotFound
  | some files =>
      if (files.filter pdfGlobMatch).isEmpty then .error .EmptyCorpus
      else do
        let chunks ← cargar_documentos (some files)
        crear_vectorstore chunks 64

/-- Modelled from the spec: the memo table behind getOrBuild of section 4.5.
The code relies on the cache_resource decorator of the streamlit framework
(app.py line 72), whose implementation is not part of this repository; the
spec describes a memo table keyed by signature that reinvokes the build
function only on a missing key. Lookup in the table. -/
def findSig (sig : Str) : List (Str × α) → Option α
  | [] => none
  | (s, p) :: rest => if s = sig then some p else findSig sig rest

/-- Modelled from the spec: getOrBuild of section 4.5. Returns the pipeline,
the updated memo table, and how many times the build function ran during
this call (0 on a cache hit, 1 on a miss). -/
def getOrBuild (cache : List (Str × α)) (sig : Str) (build : Unit → α) :
    α × List (Str × α) × Nat :=
  match findSig sig cache with
  | some p => (p, cache, 0)
  | none => (build (), (sig, build ()) :: cache, 1)

/-- One conversation message of the session state, with a role and a
content. -/
structure Msg where
  role : Str
  content : Str
deriving DecidableEq

/-- Model of one iteration of the chat block (app.py lines 135 to 169) for a
non-empty prompt with the API key set: the user message is appended to the
session history (line 140), then the chain runs; on an exception (modelled
by none) the script stops with the history as it stands, and on a result
(possibly the empty string) the assistant message is appended (line 169). -/
def chat_turn (messages : List Msg) (prompt : Str) (llm : Option Str) : List Msg :=
  let afterUser := messages ++ [⟨"user".data, prompt⟩]
  match llm with
  | none => afterUser
  | some answer => afterUser ++ [⟨"assistant".data, answer⟩]

/-- Model of the excerpt shown for one retrieved source (app.py lines 162 to
165): the first 500 characters of the page content, with a horizontal
ellipsis appended when the content is longer than 500 characters. -/
def excerpt (content : Str) : Str :=
  content.take 500 ++ (if content.length > 500 then ['…'] else [])

/-- Overlap removal for every chunk after the first: each later chunk
contributes everything past its first ov characters. -/
def joinTail (ov : Nat) (rest : List Str) : Str :=
  (rest.map (fun s => s.drop ov)).flatten

/-- Concatenation of a chunk sequence with the overlap regions removed: the
first chunk whole, every later chunk without its leading ov characters. -/
def joinOverlap (ov : Nat) : List Str → Str
  | [] => []
  | c :: rest => c ++ joinTail ov rest

/-- Value of a decimal digit string, used to invert the decimal rendering of
modification times. -/
def digitsVal (l : Str) : Nat :=
  l.foldl (fun acc c => acc * 10 + (c.toNat - 48)) 0

/-! ### Batching lemmas for crear_vectorstore -/

theorem chunkListAux_flatten {α : Type} (bs : Nat) (hbs : 1 ≤ bs) :
    ∀ (fuel : Nat) (l : List α), l.length ≤ fuel →
      (chunkListAux bs fuel l).flatten = l := by
  intro fuel
  induction fuel with
  | zero =>
      intro l hl
      have : l = [] := List.eq_nil_of_length_eq_zero (Nat.le_zero.mp hl)
      subst this
      rfl
  | succ fuel ih =>
      intro l hl
      cases l with
      | nil => rfl
      | cons x xs =>
          have hrec : (List.drop bs (x :: xs)).length ≤ fuel := by
            rw [List.length_drop]
            have : (x :: xs).length ≤ fuel + 1 := hl
            omega
          simp only [chunkListAux, List.flatten_cons, ih _ hrec, List.take_append_drop]

theorem chunkListAux_mem {α : Type} (bs : Nat) (hbs : 1 ≤ bs) :
    ∀ (fuel : Nat) (l : List α) (b : List α), l.length ≤ fuel →
      b ∈ chunkListAux bs fuel l → b ≠ [] ∧ b.length ≤ bs := by
  intro fuel
  induction fuel with
  | zero =>
      intro l b hl hb
      have : l = [] := List.eq_nil_of_length_eq_zero (Nat.le_zero.mp hl)
      subst this
      simp [chunkListAux] at hb
  | succ fuel ih =>
      intro l b hl hb
      cases l with
      | nil => simp [chunkListAux] at hb
      | cons x xs =>
          simp only [chunkListAux, List.mem_cons] at hb
          rcases hb with hb | hb
          · subst hb
            constructor
            · obtain ⟨k, hk⟩ := Nat.exists_eq_add_of_le hbs
              subst hk
              simp [List.take_cons]
            · simp
          · have hrec : (List.drop bs (x :: xs)).length ≤ fuel := by
              rw [List.length_drop]
              have : (x :: xs).length ≤ fuel + 1 := hl
              omega
            exact ih _ _ hrec hb

theorem foldl_add_documents_entries {α : Type} :
    ∀ (batches : List (List α)) (vs : VectorStore α),
      (batches.foldl add_documents vs).entries = vs.entries ++ batches.flatten := by
  intro batches
  induction batches with
  | nil => intro vs; simp
  | cons b rest ih =>
      intro vs
      simp [List.foldl_cons, ih, add_documents, List.flatten_cons]

theorem crearBatches_flatten {α : Type} (documentos : List α) (bs : Nat) (hbs : 1 ≤ bs) :
    (crearBatches documentos bs).flatten = documentos := by
  simp only [crearBatches, restBatches, List.flatten_cons,
    chunkListAux_flatten bs hbs _ _ (Nat.le_refl _), List.take_append_drop]

/-- C1: for every non-empty document list and every batch size of at least
one, crear_vectorstore succeeds; the batches it processes are consecutive
slices, in the original order, whose concatenation is exactly the input
(each document in exactly one batch), every batch has at most bs documents
and none is empty; the first batch, which initialises the index, is the
non-empty initial slice; and the final index holds the initial batch
followed by the remaining batches inserted incrementally in that order,
which is the whole input in order. -/
theorem crear_vectorstore_batches {α : Type} (documentos : List α) (bs : Nat)
    (hne : documentos ≠ []) (hbs : 1 ≤ bs) :
    ∃ vs : VectorStore α,
      crear_vectorstore documentos bs = .ok vs ∧
      vs.entries = (crearBatches documentos bs).flatten ∧
      (crearBatches documentos bs).flatten = documentos ∧
      (∀ b ∈ crearBatches documentos bs, b ≠ [] ∧ b.length ≤ bs) ∧
      (crearBatches documentos bs).head? = some (documentos.take bs) ∧
      documentos.take bs ≠ [] := by
  have hflat := crearBatches_flatten documentos bs hbs
  have hfirst : documentos.take bs ≠ [] := by
    cases documentos with
    | nil => exact absurd rfl hne
    | cons x xs =>
        obtain ⟨k, hk⟩ := Nat.exists_eq_add_of_le hbs
        subst hk
        simp [List.take_cons]
  refine ⟨(restBatches documentos bs).foldl add_documents
      (FAISS_from_documents (documentos.take bs)), ?_, ?_, hflat, ?_, rfl, hfirst⟩
  · have hie : documentos.isEmpty = false := by
      cases documentos with
      | nil => exact absurd rfl hne
      | cons _ _ => rfl
    simp [crear_vectorstore, hie]
  · rw [foldl_add_documents_entries]
    simp [FAISS_from_documents, crearBatches]
  · intro b hb
    simp only [crearBatches, List.mem_cons] at hb
    rcases hb with hb | hb
    · subst hb
      refine ⟨hfirst, by simp⟩
    · exact chunkListAux_mem bs hbs _ _ b (Nat.le_refl _) hb

/-- Witness for C1 at a concrete input: three documents with batch size
two. -/
theorem crear_vectorstore_batches_witness :
    ∃ vs : VectorStore Nat,
      crear_vectorstore [10, 20, 30] 2 = .ok vs ∧
      vs.entries = (crearBatches [10, 20, 30] 2).flatten ∧
      (crearBatches [10, 20, 30] 2).flatten = [10, 20, 30] ∧
      (∀ b ∈ crearBatches [10, 20, 30] 2, b ≠ [] ∧ b.length ≤ 2) ∧
      (crearBatches [10, 20, 30] 2).head? = some ([10, 20, 30].take 2) ∧
      [10, 20, 30].take 2 ≠ [] :=
  crear_vectorstore_batches [10, 20, 30] 2 (by decide) (by decide)

/-! ### Build failure cases -/

/-- C2: loading fails with NotFound when the folder does not exist, and with
EmptyCorpus when the folder exists but the loader finds no PDF page at all —
no file is a PDF, or extraction yields zero pages; in either case
build_pipeline returns an error, so no index is built. -/
theorem build_pipeline_failure_cases :
    build_pipeline none = .error .NotFound ∧
    ∀ files : List PDFFile,
      ((files.filter pdfLowerMatch).map (fun f => f.pages)).flatten = [] →
      build_pipeline (some files) = .error .EmptyCorpus := by
  refine ⟨rfl, ?_⟩
  intro files hload
  simp only [build_pipeline]
  by_cases hglob : (files.filter pdfGlobMatch).isEmpty
  · rw [if_pos hglob]
  · rw [if_neg hglob]
    simp [cargar_documentos, hload, Bind.bind, Except.bind]

/-- Witness for C2 at concrete inputs: the missing folder, and a folder with
a single PDF that extracts to zero pages. -/
theorem build_pipeline_failure_cases_witness :
    build_pipeline none = .error .NotFound ∧
    build_pipeline (some [⟨"a.pdf".data, some 0, []⟩]) = .error .EmptyCorpus :=
  ⟨build_pipeline_failure_cases.1,
    build_pipeline_failure_cases.2 [⟨"a.pdf".data, some 0, []⟩] (by decide)⟩

/-! ### Answer-phase history behaviour -/

/-- C8 counterexample: the claim says that after a failed question the
message history equals the history before it, but the code appends the user
message at app.py line 140 before the model call, so a failure (the stop on
line 152) leaves the user message appended; likewise a call returning empty
text still appends an empty assistant message at line 169. -/
theorem chat_turn_counterexample :
    chat_turn [] ['q'] none ≠ ([] : List Msg) ∧
    chat_turn [] ['q'] (some []) ≠ ([] : List Msg) := by
  constructor <;> decide

/-- C8 amended: when the model call raises, no assistant message is
appended, but the user question message is — the history after the failure
is the prior history with exactly the user message appended; when the call
returns text (even empty), both the user message and an assistant message
carrying that text are appended. The prior history is preserved as a prefix
in both cases. -/
theorem chat_turn_history (messages : List Msg) (prompt : Str) :
    chat_turn messages prompt none = messages ++ [⟨"user".data, prompt⟩] ∧
    (∀ answer : Str, chat_turn messages prompt (some answer) =
      messages ++ [⟨"user".data, prompt⟩, ⟨"assistant".data, answer⟩]) := by
  exact ⟨rfl, fun answer => by simp [chat_turn]⟩

/-! ### Source excerpt truncation -/

/-- C9: the excerpt shown with an answer is the first 500 characters of the
passage at most — on content of at most 500 characters it is the content
itself, and on longer content it is exactly the 500-character prefix — and
the ellipsis truncation marker is appended exactly when the content is
longer than 500 characters. -/
theorem excerpt_truncation (content : Str) :
    (excerpt content).take 500 = content.take 500 ∧
    (content.length ≤ 500 → excerpt content = content) ∧
    (excerpt content = content.take 500 ++ ['…'] ↔ 500 < content.length) := by
  by_cases h : 500 < content.length
  · have htake : (content.take 500).length = 500 := by
      rw [List.length_take]
      omega
    simp only [excerpt, if_pos h]
    refine ⟨?_, fun hle => absurd h (by omega), by simp [h]⟩
    rw [List.take_append_of_le_length (by omega), List.take_take]
    simp
  · have hall : content.take 500 = content := List.take_of_length_le (by omega)
    simp only [excerpt, if_neg h, List.append_nil, hall]
    refine ⟨trivial, fun _ => trivial, ?_⟩
    constructor
    · intro heq
      have := congrArg List.length heq
      simp at this
    · intro hlt
      exact absurd hlt h

/-! ### Cached build -/

/-- C4: on a signature not yet in the memo table, two calls of getOrBuild
with the same signature run the underlying build function exactly once in
total; the second call returns the pipeline built by the first and leaves
the table unchanged, so the loader, chunker, batcher and index construction
behind the build function do not run again. -/
theorem getOrBuild_memoizes {α : Type} (cache : List (Str × α)) (sig : Str)
    (build : Unit → α) (h : findSig sig cache = none) :
    (getOrBuild cache sig build).2.2 +
      (getOrBuild (getOrBuild cache sig build).2.1 sig build).2.2 = 1 ∧
    (getOrBuild (getOrBuild cache sig build).2.1 sig build).1 =
      (getOrBuild cache sig build).1 ∧
    (getOrBuild cache sig build).1 = build () ∧
    (getOrBuild (getOrBuild cache sig build).2.1 sig build).2.1 =
      (getOrBuild cache sig build).2.1 := by
  simp [getOrBuild, findSig, h]

/-- Witness for C4 at a concrete input: an empty memo table, one signature,
and a build function returning 7. -/
theorem getOrBuild_memoizes_witness :
    (getOrBuild ([] : List (Str × Nat)) "s".data (fun _ => 7)).2.2 +
      (getOrBuild (getOrBuild ([] : List (Str × Nat)) "s".data (fun _ => 7)).2.1
        "s".data (fun _ => 7)).2.2 = 1 ∧
    (getOrBuild (getOrBuild ([] : List (Str × Nat)) "s".data (fun _ => 7)).2.1
      "s".data (fun _ => 7)).1 =
      (getOrBuild ([] : List (Str × Nat)) "s".data (fun _ => 7)).1 ∧
    (getOrBuild ([] : List (Str × Nat)) "s".data (fun _ => 7)).1 = 7 ∧
    (getOrBuild (getOrBuild ([] : List (Str × Nat)) "s".data (fun _ => 7)).2.1
      "s".data (fun _ => 7)).2.1 =
      (getOrBuild ([] : List (Str × Nat)) "s".data (fun _ => 7)).2.1 :=
  getOrBuild_memoizes [] "s".data (fun _ => 7) rfl

/-! ### Chunker lemmas -/

theorem splitAux_ne_nil (cs ov fuel : Nat) (l : Str) (hl : l ≠ []) :
    splitAux cs ov fuel l ≠ [] := by
  cases fuel with
  | zero =>
      cases l with
      | nil => exact absurd rfl hl
      | cons c tl => simp [splitAux]
  | succ fuel =>
      cases l with
      | nil => exact absurd rfl hl
      | cons c tl =>
          simp only [splitAux]
          by_cases h : tl.length + 1 ≤ cs
          · simp [h]
          · simp [h]

theorem splitAux_head (cs ov fuel : Nat) (l : Str) (hl : l ≠ [])
    (hfuel : l.length ≤ fuel) :
    ∃ rest, splitAux cs ov fuel l = l.take cs :: rest := by
  cases fuel with
  | zero =>
      have : l = [] := List.eq_nil_of_length_eq_zero (Nat.le_zero.mp hfuel)
      exact absurd this hl
  | succ fuel =>
      cases l with
      | nil => exact absurd rfl hl
      | cons c tl =>
          simp only [splitAux]
          by_cases h : tl.length + 1 ≤ cs
          · refine ⟨[], ?_⟩
            have htake : List.take cs (c :: tl) = c :: tl :=
              List.take_of_length_le (by simpa using h)
            simp [h, htake]
          · exact ⟨splitAux cs ov fuel (List.drop (cs - ov) (c :: tl)), by simp [h]⟩

theorem splitAux_mem (cs ov : Nat) (hov : ov < cs) :
    ∀ (fuel : Nat) (l b : Str), l.length ≤ fuel →
      b ∈ splitAux cs ov fuel l → b ≠ [] ∧ b.length ≤ cs := by
  intro fuel
  induction fuel with
  | zero =>
      intro l b hl hb
      have : l = [] := List.eq_nil_of_length_eq_zero (Nat.le_zero.mp hl)
      subst this
      simp [splitAux] at hb
  | succ fuel ih =>
      intro l b hl hb
      cases l with
      | nil => simp [splitAux] at hb
      | cons c tl =>
          simp only [splitAux] at hb
          by_cases h : (c :: tl).length ≤ cs
          · rw [if_pos h] at hb
            simp only [List.mem_singleton] at hb
            subst hb
            exact ⟨List.cons_ne_nil c tl, h⟩
          · rw [if_neg h] at hb
            simp only [List.mem_cons] at hb
            rcases hb with hb | hb
            · subst hb
              constructor
              · obtain ⟨k, hk⟩ : ∃ k, cs = k + 1 := ⟨cs - 1, by omega⟩
                subst hk
                simp [List.take_cons]
              · simp
            · have hrec : (List.drop (cs - ov) (c :: tl)).length ≤ fuel := by
                rw [List.length_drop]
                simp only [List.length_cons] at hl ⊢
                omega
              exact ih _ b hrec hb

theorem splitAux_chain (cs ov : Nat) (hov : ov < cs) :
    ∀ (fuel : Nat) (l : Str), l.length ≤ fuel →
      List.Chain' (fun a b => a.length = cs ∧ ov ≤ b.length ∧
        a.drop (cs - ov) = b.take ov) (splitAux cs ov fuel l) := by
  intro fuel
  induction fuel with
  | zero =>
      intro l hl
      have : l = [] := List.eq_nil_of_length_eq_zero (Nat.le_zero.mp hl)
      subst this
      simp [splitAux]
  | succ fuel ih =>
      intro l hl
      cases l with
      | nil => simp [splitAux]
      | cons c tl =>
          simp only [splitAux]
          by_cases h : (c :: tl).length ≤ cs
          · rw [if_pos h]
            exact List.chain'_singleton _
          · rw [if_neg h]
            simp only [List.length_cons] at h
            set l' := List.drop (cs - ov) (c :: tl) with hl'
            have hlen : (c :: tl).length = tl.length + 1 := rfl
            have hl'len : l'.length = tl.length + 1 - (cs - ov) := by
              rw [hl', List.length_drop, hlen]
            have hl'pos : ov < l'.length := by omega
            have hl'ne : l' ≠ [] := by
              rw [← List.length_pos]
              omega
            have hl'fuel : l'.length ≤ fuel := by
              simp only [List.length_cons] at hl
              omega
            obtain ⟨rest, hrest⟩ := splitAux_head cs ov fuel l' hl'ne hl'fuel
            rw [hrest]
            have hrel : (List.take cs (c :: tl)).length = cs ∧
                ov ≤ (List.take cs l').length ∧
                (List.take cs (c :: tl)).drop (cs - ov) = (List.take cs l').take ov := by
              refine ⟨?_, ?_, ?_⟩
              · rw [List.length_take]
                simp only [hlen]
                omega
              · rw [List.length_take]
                omega
              · rw [List.drop_take, List.take_take]
                have h1 : cs - (cs - ov) = ov := by omega
                have h2 : min ov cs = ov := by omega
                rw [h1, h2]
            have hchain : List.Chain' (fun a b => a.length = cs ∧ ov ≤ b.length ∧
                a.drop (cs - ov) = b.take ov) (List.take cs l' :: rest) := by
              rw [← hrest]
              exact ih l' hl'fuel
            exact List.Chain'.cons hrel hchain

theorem splitAux_joinTail (cs ov : Nat) (hov : ov < cs) :
    ∀ (fuel : Nat) (l : Str), l.length ≤ fuel →
      joinTail ov (splitAux cs ov fuel l) = l.drop ov := by
  intro fuel
  induction fuel with
  | zero =>
      intro l hl
      have : l = [] := List.eq_nil_of_length_eq_zero (Nat.le_zero.mp hl)
      subst this
      simp [splitAux, joinTail]
  | succ fuel ih =>
      intro l hl
      cases l with
      | nil => simp [splitAux, joinTail]
      | cons c tl =>
          simp only [splitAux]
          by_cases h : (c :: tl).length ≤ cs
          · rw [if_pos h]
            simp [joinTail]
          · rw [if_neg h]
            have hrec : (List.drop (cs - ov) (c :: tl)).length ≤ fuel := by
              rw [List.length_drop]
              simp only [List.length_cons] at hl ⊢
              omega
            simp only [joinTail, List.map_cons, List.flatten_cons]
            have htail := ih _ hrec
            simp only [joinTail] at htail
            rw [htail]
            rw [List.drop_take, List.drop_drop]
            have h2 : cs - ov + ov = cs := by omega
            rw [h2]
            have h3 : List.drop cs (c :: tl) = List.drop (cs - ov) (List.drop ov (c :: tl)) := by
              rw [List.drop_drop]
              congr 1
              omega
            rw [h3, List.take_append_drop]

theorem splitAux_joinOverlap (cs ov : Nat) (hov : ov < cs) :
    ∀ (fuel : Nat) (l : Str), l.length ≤ fuel →
      joinOverlap ov (splitAux cs ov fuel l) = l := by
  intro fuel
  induction fuel with
  | zero =>
      intro l hl
      have : l = [] := List.eq_nil_of_length_eq_zero (Nat.le_zero.mp hl)
      subst this
      simp [splitAux, joinOverlap]
  | succ fuel ih =>
      intro l hl
      cases l with
      | nil => simp [splitAux, joinOverlap]
      | cons c tl =>
          simp only [splitAux]
          by_cases h : (c :: tl).length ≤ cs
          · rw [if_pos h]
            simp [joinOverlap, joinTail]
          · rw [if_neg h]
            have hrec : (List.drop (cs - ov) (c :: tl)).length ≤ fuel := by
              rw [List.length_drop]
              simp only [List.length_cons] at hl ⊢
              omega
            simp only [joinOverlap]
            rw [splitAux_joinTail cs ov hov fuel _ hrec]
            rw [List.drop_drop]
            have h2 : cs - ov + ov = cs := by omega
            rw [h2, List.take_append_drop]

/-- C7: for every page text and all chunking parameters with overlap
strictly below the chunk size, concatenating the produced chunks with the
overlap regions removed — the first chunk whole, each later chunk without
its first ov characters — reconstructs the page text exactly. -/
theorem splitPage_reconstruct (cs ov : Nat) (hov : ov < cs) (t : Str) :
    joinOverlap ov (splitPage cs ov t) = t :=
  splitAux_joinOverlap cs ov hov t.length t (Nat.le_refl _)

/-- Witness for C7 at a concrete input: chunk size five, overlap two, a
seven-character page. -/
theorem splitPage_reconstruct_witness :
    joinOverlap 2 (splitPage 5 2 "abcdefg".data) = "abcdefg".data :=
  splitPage_reconstruct 5 2 (by decide) "abcdefg".data

/-- C6: with the configured parameters of main.py — chunk size 1000 and
overlap 200 — every chunk produced from the loaded pages is non-empty and
at most 1000 characters long; within one page, every chunk followed by
another is exactly 1000 characters long and its final 200 characters are
exactly the first 200 characters of the next chunk (the shared overlap
region); and pages are chunked independently, so no chunk crosses a page or
document boundary. -/
theorem chunker_invariants (pages : List Str) :
    (∀ t ∈ pages, ∀ b ∈ splitPage 1000 200 t, b ≠ [] ∧ b.length ≤ 1000) ∧
    (∀ t ∈ pages, List.Chain'
      (fun a b => a.length = 1000 ∧ 200 ≤ b.length ∧ a.drop 800 = b.take 200)
      (splitPage 1000 200 t)) ∧
    (∀ qs : List Str, split_documents 1000 200 (pages ++ qs) =
      split_documents 1000 200 pages ++ split_documents 1000 200 qs) := by
  refine ⟨?_, ?_, ?_⟩
  · intro t _ b hb
    exact splitAux_mem 1000 200 (by omega) t.length t b (Nat.le_refl _) hb
  · intro t _
    have := splitAux_chain 1000 200 (by omega) t.length t (Nat.le_refl _)
    simpa using this
  · intro qs
    simp [split_documents]

/-- Witness for C6 at a concrete input: a single short page. -/
theorem chunker_invariants_witness :
    ((['a'] : Str) ≠ [] ∧ (['a'] : Str).length ≤ 1000) ∧
    List.Chain' (fun a b => a.length = 1000 ∧ 200 ≤ b.length ∧
      a.drop 800 = b.take 200) (splitPage 1000 200 ['a']) ∧
    split_documents 1000 200 ([['a']] ++ [['b']]) =
      split_documents 1000 200 [['a']] ++ split_documents 1000 200 [['b']] :=
  ⟨(chunker_invariants [['a']]).1 ['a'] (by decide) ['a'] (by decide),
   (chunker_invariants [['a']]).2.1 ['a'] (by decide),
   (chunker_invariants [['a']]).2.2 [['b']]⟩

/-! ### Decimal rendering lemmas -/

theorem toNat_ofNat_of_lt (n : Nat) (h : n < 55296) : (Char.ofNat n).toNat = n := by
  have hv : n.isValidChar := Or.inl h
  rw [Char.ofNat, dif_pos hv]
  rfl

theorem natDigitsAux_ne_nil (fuel n : Nat) : natDigitsAux fuel n ≠ [] := by
  cases fuel with
  | zero => simp [natDigitsAux]
  | succ fuel =>
      simp only [natDigitsAux]
      by_cases h : n < 10
      · simp [h]
      · simp [h]

theorem natDigitsAux_all_digit (fuel : Nat) :
    ∀ (n : Nat) (c : Char), c ∈ natDigitsAux fuel n →
      48 ≤ c.toNat ∧ c.toNat ≤ 57 := by
  induction fuel with
  | zero =>
      intro n c hc
      simp only [natDigitsAux, List.mem_singleton] at hc
      subst hc
      have hm : n % 10 < 10 := Nat.mod_lt n (by omega)
      rw [toNat_ofNat_of_lt _ (by omega)]
      omega
  | succ fuel ih =>
      intro n c hc
      simp only [natDigitsAux] at hc
      by_cases h : n < 10
      · rw [if_pos h] at hc
        simp only [List.mem_singleton] at hc
        subst hc
        rw [toNat_ofNat_of_lt _ (by omega)]
        omega
      · rw [if_neg h] at hc
        simp only [List.mem_append, List.mem_singleton] at hc
        rcases hc with hc | hc
        · exact ih _ c hc
        · subst hc
          have hm : n % 10 < 10 := Nat.mod_lt n (by omega)
          rw [toNat_ofNat_of_lt _ (by omega)]
          omega

theorem digitsVal_natDigitsAux (fuel : Nat) :
    ∀ n : Nat, n ≤ fuel → digitsVal (natDigitsAux fuel n) = n := by
  induction fuel with
  | zero =>
      intro n hn
      have : n = 0 := Nat.le_zero.mp hn
      subst this
      simp only [natDigitsAux, digitsVal, List.foldl_cons, List.foldl_nil]
      rw [toNat_ofNat_of_lt _ (by omega)]
  | succ fuel ih =>
      intro n hn
      simp only [natDigitsAux]
      by_cases h : n < 10
      · rw [if_pos h]
        simp only [digitsVal, List.foldl_cons, List.foldl_nil]
        rw [toNat_ofNat_of_lt _ (by omega)]
        omega
      · rw [if_neg h]
        have hdiv : n / 10 ≤ fuel := by
          have h1 : n / 10 < n := Nat.div_lt_self (by omega) (by omega)
          omega
        have hm : n % 10 < 10 := Nat.mod_lt n (by omega)
        simp only [digitsVal, List.foldl_append, List.foldl_cons, List.foldl_nil]
        have hih := ih (n / 10) hdiv
        simp only [digitsVal] at hih
        rw [hih, toNat_ofNat_of_lt _ (by omega)]
        omega

theorem natDigits_inj (n m : Nat) (h : natDigits n = natDigits m) : n = m := by
  have hn := digitsVal_natDigitsAux n n (Nat.le_refl n)
  have hm := digitsVal_natDigitsAux m m (Nat.le_refl m)
  rw [natDigits] at h
  rw [natDigits] at h
  rw [← hn, ← hm, h]

theorem natDigitsAux_getLast_digit (fuel n : Nat) :
    ∃ c, (natDigitsAux fuel n).getLast? = some c ∧ 48 ≤ c.toNat ∧ c.toNat ≤ 57 := by
  have hne := natDigitsAux_ne_nil fuel n
  refine ⟨(natDigitsAux fuel n).getLast hne, List.getLast?_eq_getLast _ hne, ?_⟩
  exact natDigitsAux_all_digit fuel n _ (List.getLast_mem hne)

theorem intRepr_ne_nil (m : Int) : intRepr m ≠ [] := by
  rw [intRepr]
  by_cases h : m < 0
  · simp [h]
  · simp only [if_neg h]
    exact natDigitsAux_ne_nil _ _

theorem intRepr_getLast_digit (m : Int) :
    ∃ c, (intRepr m).getLast? = some c ∧ 48 ≤ c.toNat ∧ c.toNat ≤ 57 := by
  rw [intRepr]
  by_cases h : m < 0
  · rw [if_pos h]
    obtain ⟨c, hc, hd⟩ := natDigitsAux_getLast_digit m.natAbs m.natAbs
    refine ⟨c, ?_, hd⟩
    have : ('-' :: natDigits m.natAbs) = ['-'] ++ natDigits m.natAbs := rfl
    rw [this, List.getLast?_append]
    simp only [natDigits]
    rw [hc]
    rfl
  · rw [if_neg h]
    exact natDigitsAux_getLast_digit _ _

theorem intRepr_inj (m m2 : Int) (h : intRepr m = intRepr m2) : m = m2 := by
  rw [intRepr, intRepr] at h
  by_cases h1 : m < 0 <;> by_cases h2 : m2 < 0
  · rw [if_pos h1, if_pos h2] at h
    have := natDigits_inj _ _ (List.tail_eq_of_cons_eq h)
    omega
  · rw [if_pos h1, if_neg h2] at h
    exfalso
    have hmem : '-' ∈ natDigits m2.toNat := by
      rw [← h]
      exact List.mem_cons_self _ _
    have := natDigitsAux_all_digit _ _ _ hmem
    have hval : ('-').toNat = 45 := rfl
    omega
  · rw [if_neg h1, if_pos h2] at h
    exfalso
    have hmem : '-' ∈ natDigits m.toNat := by
      rw [h]
      exact List.mem_cons_self _ _
    have := natDigitsAux_all_digit _ _ _ hmem
    have hval : ('-').toNat = 45 := rfl
    omega
  · rw [if_neg h1, if_neg h2] at h
    have := natDigits_inj _ _ h
    omega

/-! ### Signature joining lemmas -/

theorem joinBar_cons_of_ne_nil (s : Str) (rest : List Str) (h : rest ≠ []) :
    joinBar (s :: rest) = s ++ '|' :: joinBar rest := by
  cases rest with
  | nil => exact absurd rfl h
  | cons q qs => rfl

theorem joinBar_inj_at : ∀ (P : List Str) (x y : Str) (Q : List Str),
    joinBar (P ++ x :: Q) = joinBar (P ++ y :: Q) → x = y := by
  intro P
  induction P with
  | nil =>
      intro x y Q h
      cases Q with
      | nil => exact h
      | cons q qs =>
          simp only [List.nil_append] at h
          rw [joinBar_cons_of_ne_nil x (q :: qs) (List.cons_ne_nil q qs),
            joinBar_cons_of_ne_nil y (q :: qs) (List.cons_ne_nil q qs)] at h
          have hlen : x.length = y.length := by
            have := congrArg List.length h
            simp only [List.length_append, List.length_cons] at this
            omega
          exact (List.append_inj h hlen).1
  | cons p ps ih =>
      intro x y Q h
      have hne : ps ++ x :: Q ≠ [] := by simp
      have hne2 : ps ++ y :: Q ≠ [] := by simp
      rw [List.cons_append, List.cons_append,
        joinBar_cons_of_ne_nil p _ hne, joinBar_cons_of_ne_nil p _ hne2] at h
      have h2 := List.append_cancel_left h
      have h3 : joinBar (ps ++ x :: Q) = joinBar (ps ++ y :: Q) :=
        List.tail_eq_of_cons_eq h2
      exact ih x y Q h3

theorem partStr_getLast_digit (f : PDFFile) :
    ∃ c, (partStr f).getLast? = some c ∧ 48 ≤ c.toNat ∧ c.toNat ≤ 57 := by
  obtain ⟨c, hc, hd⟩ := intRepr_getLast_digit (f.mtime.getD 0)
  refine ⟨c, ?_, hd⟩
  rw [partStr, List.getLast?_append]
  have : (':' :: intRepr (f.mtime.getD 0)) = [':'] ++ intRepr (f.mtime.getD 0) := rfl
  rw [this, List.getLast?_append, hc]
  rfl

theorem joinBar_getLast_digit : ∀ parts : List Str, parts ≠ [] →
    (∀ p ∈ parts, ∃ c, p.getLast? = some c ∧ 48 ≤ c.toNat ∧ c.toNat ≤ 57) →
    ∃ c, (joinBar parts).getLast? = some c ∧ 48 ≤ c.toNat ∧ c.toNat ≤ 57 := by
  intro parts
  induction parts with
  | nil => intro h; exact absurd rfl h
  | cons p rest ih =>
      intro _ hall
      cases rest with
      | nil => exact hall p (List.mem_singleton.mpr rfl)
      | cons q qs =>
          obtain ⟨c, hc, hd⟩ := ih (List.cons_ne_nil q qs)
            (fun r hr => hall r (List.mem_cons_of_mem p hr))
          refine ⟨c, ?_, hd⟩
          rw [joinBar_cons_of_ne_nil p (q :: qs) (List.cons_ne_nil q qs),
            List.getLast?_append]
          have : ('|' :: joinBar (q :: qs)) = ['|'] ++ joinBar (q :: qs) := rfl
          rw [this, List.getLast?_append, hc]
          rfl

theorem partStr_inj_of_name_eq (f g : PDFFile) (hname : g.name = f.name)
    (h : partStr f = partStr g) : f.mtime.getD 0 = g.mtime.getD 0 := by
  rw [partStr, partStr, hname] at h
  have h2 := List.append_cancel_left h
  exact intRepr_inj _ _ (List.tail_eq_of_cons_eq h2)

/-! ### Corpus signature -/

/-- C3 counterexample: the claim quantifies over every PDF, but a file with
an uppercase PDF extension is read by the loader (its lowered name ends in
dot-pdf) while the signature glob is case-sensitive; so there is a folder
whose one PDF can change its modification time without changing the
returned signature — both states sign as the empty sentinel. -/
theorem folder_signature_touch_counterexample :
    pdfLowerMatch ⟨"doc.PDF".data, some 1, []⟩ = true ∧
    (1 : Int) ≠ 2 ∧
    folder_signature (some [⟨"doc.PDF".data, some 1, []⟩]) =
      folder_signature (some [⟨"doc.PDF".data, some 2, []⟩]) := by
  decide

/-- C3 amended: folder_signature is a total function of the folder state —
it returns the missing sentinel on an absent folder and the empty sentinel
when no file matches the case-sensitive glob pattern, and it never raises
(a stat failure falls back to mtime 0) — it is deterministic, and touching
the modification time of any file that matches the case-sensitive
lowercase dot-pdf pattern (rather than of an arbitrary PDF: an uppercase
extension is invisible to the glob) changes the returned string: two folder
states whose sorted glob listings agree except for the integer mtime of one
file with the same name sign differently. -/
theorem folder_signature_spec :
    folder_signature none = "missing".data ∧
    (∀ files, globPdf files = [] → folder_signature (some files) = "empty".data) ∧
    (∀ fs, folder_signature fs = folder_signature fs) ∧
    (∀ (files files2 : List PDFFile) (A B : List PDFFile) (f f2 : PDFFile),
      globPdf files = A ++ f :: B → globPdf files2 = A ++ f2 :: B →
      f2.name = f.name → f.mtime.getD 0 ≠ f2.mtime.getD 0 →
      folder_signature (some files) ≠ folder_signature (some files2)) := by
  refine ⟨rfl, ?_, fun _ => rfl, ?_⟩
  · intro files hglob
    simp [folder_signature, hglob]
  · intro files files2 A B f f2 hg hg2 hname hm heq
    have hmap : (globPdf files).map partStr =
        (A.map partStr) ++ partStr f :: (B.map partStr) := by
      rw [hg, List.map_append, List.map_cons]
    have hmap2 : (globPdf files2).map partStr =
        (A.map partStr) ++ partStr f2 :: (B.map partStr) := by
      rw [hg2, List.map_append, List.map_cons]
    have hne : ((globPdf files).map partStr).isEmpty = false := by
      rw [hmap]
      cases A.map partStr with
      | nil => rfl
      | cons _ _ => rfl
    have hne2 : ((globPdf files2).map partStr).isEmpty = false := by
      rw [hmap2]
      cases A.map partStr with
      | nil => rfl
      | cons _ _ => rfl
    rw [folder_signature, folder_signature] at heq
    simp only [hne, hne2, Bool.false_eq_true, if_false] at heq
    rw [hmap, hmap2] at heq
    have hpart := joinBar_inj_at (A.map partStr) (partStr f) (partStr f2)
      (B.map partStr) heq
    exact hm (partStr_inj_of_name_eq f f2 hname hpart)

/-- Witness for C3 at concrete inputs: one folder with a single tracked PDF
whose mtime is 3, and the same folder with that mtime at 4. -/
theorem folder_signature_spec_witness :
    folder_signature none = "missing".data ∧
    folder_signature (some []) = "empty".data ∧
    folder_signature (some [⟨"a.pdf".data, some 3, []⟩]) ≠
      folder_signature (some [⟨"a.pdf".data, some 4, []⟩]) :=
  ⟨folder_signature_spec.1,
   folder_signature_spec.2.1 [] rfl,
   folder_signature_spec.2.2.2 [⟨"a.pdf".data, some 3, []⟩]
     [⟨"a.pdf".data, some 4, []⟩] [] [] ⟨"a.pdf".data, some 3, []⟩
     ⟨"a.pdf".data, some 4, []⟩ (by decide) (by decide) rfl (by decide)⟩

/-- C5: the forced signature — the natural signature with the colon-force
marker appended — differs from every string folder_signature can return on
any folder state, so a forced rebuild always misses the cache: a natural
signature ends in the letter g of the missing sentinel, the letter y of the
empty sentinel, or a decimal digit of an integer mtime, never in the
letter e the marker ends with. -/
theorem forced_signature_fresh (fs fs2 : Option (List PDFFile)) :
    forced_signature fs ≠ folder_signature fs2 := by
  intro heq
  have hforce : (forced_signature fs).getLast? = some 'e' := by
    rw [forced_signature, List.getLast?_append]
    rfl
  have hnat : ∃ c, (folder_signature fs2).getLast? = some c ∧
      (c = 'g' ∨ c = 'y' ∨ (48 ≤ c.toNat ∧ c.toNat ≤ 57)) := by
    match fs2 with
    | none => exact ⟨'g', rfl, Or.inl rfl⟩
    | some files =>
        rw [folder_signature]
        cases hp : (globPdf files).map partStr with
        | nil => exact ⟨'y', by simp, Or.inr (Or.inl rfl)⟩
        | cons p ps =>
            have hne : (p :: ps) ≠ [] := List.cons_ne_nil p ps
            obtain ⟨c, hc, hd⟩ := joinBar_getLast_digit (p :: ps) hne (by
              intro r hr
              have : r ∈ (globPdf files).map partStr := by rw [hp]; exact hr
              obtain ⟨g, _, hg⟩ := List.mem_map.mp this
              rw [← hg]
              exact partStr_getLast_digit g)
            refine ⟨c, ?_, Or.inr (Or.inr hd)⟩
            simp [hp, hc]
    
  obtain ⟨c, hc, hcase⟩ := hnat
  rw [heq, hc] at hforce
  have : c = 'e' := Option.some.inj hforce
  subst this
  rcases hcase with h | h | h
  · exact absurd h (by decide)
  · exact absurd h (by decide)
  · have : ('e').toNat = 101 := rfl
    omega

/-- C10: a folder whose only file has an uppercase PDF extension separates
the signature from the loader — the signature glob is case-sensitive while
the loader lowers names before matching. Adding or removing that file, or
replacing it, changes what cargar_documentos loads, yet folder_signature
returns the empty sentinel in all of these states, exactly as for the
folder with no PDF at all. -/
theorem signature_loader_mismatch :
    pdfGlobMatch ⟨"doc.PDF".data, some 5, [['h', 'i']]⟩ = false ∧
    pdfLowerMatch ⟨"doc.PDF".data, some 5, [['h', 'i']]⟩ = true ∧
    folder_signature (some []) = "empty".data ∧
    folder_signature (some [⟨"doc.PDF".data, some 5, [['h', 'i']]⟩]) = "empty".data ∧
    folder_signature (some [⟨"doc.PDF".data, some 6, [['b', 'y']]⟩]) = "empty".data ∧
    (cargar_documentos (some [⟨"doc.PDF".data, some 5, [['h', 'i']]⟩])).toOption ≠
      (cargar_documentos (some [])).toOption ∧
    (cargar_documentos (some [⟨"doc.PDF".data, some 5, [['h', 'i']]⟩])).toOption ≠
      (cargar_documentos (some [⟨"doc.PDF".data, some 6, [['b', 'y']]⟩])).toOption := by
  decide

/-- Witness for C9 at concrete inputs: a two-character content is shown
whole, and a content of 501 identical characters is truncated with the
marker appended. -/
theorem excerpt_truncation_witness :
    excerpt ['a', 'b'] = ['a', 'b'] ∧
    excerpt (List.replicate 501 'a') =
      (List.replicate 501 'a').take 500 ++ ['…'] :=
  ⟨(excerpt_truncation ['a', 'b']).2.1 (by decide),
   (excerpt_truncation (List.replicate 501 'a')).2.2.mpr
     (by rw [List.length_replicate]; omega)⟩
